import Mathlib

/-!
Verification of the ACER core of this repository (`baselines/acer/acer_simple.py`
and `baselines/acer/buffer.py`) against its natural-language specification.

The Python functions are shallowly embedded as executable Lean definitions:

* `q_retrace` mirrors `acer_simple.q_retrace`: the flat batch tensors that
  `batch_to_seq` splits into per-step slices are modelled as per-step lists of
  rationals (the recursion is elementwise across the environment axis, so one
  environment slice is modelled; `values` carries `n_steps` entries plus the
  bootstrap value `final_value`, mirroring `value_sequence[-1]`).
* `decode`/`decodeRows` mirror `Buffer.decode`: frames are scalars (the spatial
  axes are elementwise throughout), done flags are 0/1 integers as produced by
  `1.0 - dones`.  The numpy slice assignment `y_var[3:] = ...` raises when the
  destination and source lengths differ; that is modelled by the guard
  returning `none`.
* `Buffer` mirrors the circular store: the six backing arrays are maps from
  slot index to the stored per-environment payloads, `none` meaning the slot
  was never written (`np.empty` garbage is never read by the modelled paths).
-/

namespace ACER

/-! ## Retrace target recursion (`acer_simple.q_retrace`) -/

/-- Embedding of `q_retrace`.  Inputs are the per-step sequences produced by
`batch_to_seq` (`rho` is `rho_i`; `tf.minimum(1.0, rho_i)` is applied at the
point of use, elementwise identical to applying it up front) and the bootstrap
value `final_value = value_sequence[-1]`.  The loop
`for i in range(n_steps - 1, -1, -1)` walks the sequences from the last step to
the first, which is structural recursion from the tail; the returned first
component is `qrets` in forward time order (the code appends in backward order
and reverses), the second component is the final carry. -/
def q_retrace (gamma : ℚ) : List ℚ → List ℚ → List ℚ → List ℚ → List ℚ → ℚ → List ℚ × ℚ
  | r :: rs, d :: ds, qi :: qs, v :: vs, rho :: rhos, final_value =>
    let rest := q_retrace gamma rs ds qs vs rhos final_value
    let raw := r + gamma * rest.2 * (1 - d)
    (raw :: rest.1, min 1 rho * (raw - qi) + v)
  | _, _, _, _, _, final_value => ([], final_value)

/-- The carry variable of the spec's backward recursion, written from the
spec's words: `carry` at step `t` is reached after processing the `k = n - t`
steps `t, t+1, …, n-1`; `carry` at `t = n` is the bootstrap value, and
`carry_t = value_t + ρ̄_t · (raw_target_t − Q_taken_t)` with
`raw_target_t = reward_t + γ·(1 − done_t)·carry_{t+1}` and `ρ̄_t = min 1 ρ_t`. -/
def retraceCarry (gamma : ℚ) (reward done qi v rho : ℕ → ℚ) (boot : ℚ) (n : ℕ) : ℕ → ℚ
  | 0 => boot
  | k + 1 =>
    let t := n - (k + 1)
    let raw := reward t + gamma * (1 - done t) * retraceCarry gamma reward done qi v rho boot n k
    v t + min 1 (rho t) * (raw - qi t)

/-- The spec's per-step Retrace regression target
`raw_target_t = reward_t + γ·(1 − done_t)·carry_{t+1}`. -/
def retraceTarget (gamma : ℚ) (reward done qi v rho : ℕ → ℚ) (boot : ℚ) (n t : ℕ) : ℚ :=
  reward t + gamma * (1 - done t) * retraceCarry gamma reward done qi v rho boot n (n - (t + 1))

lemma q_retrace_go (gamma : ℚ) (reward done qi v rho : ℕ → ℚ) (boot : ℚ) (n : ℕ) :
    ∀ k, k ≤ n →
      q_retrace gamma ((List.range' (n - k) k).map reward) ((List.range' (n - k) k).map done)
          ((List.range' (n - k) k).map qi) ((List.range' (n - k) k).map v)
          ((List.range' (n - k) k).map rho) boot
        = ((List.range' (n - k) k).map (retraceTarget gamma reward done qi v rho boot n),
           retraceCarry gamma reward done qi v rho boot n k) := by
  intro k
  induction k with
  | zero => intro _; simp [q_retrace, retraceCarry]
  | succ k ih =>
    intro hk
    have ht : n - (k + 1) + 1 = n - k := by omega
    rw [List.range'_succ]
    simp only [List.map_cons]
    rw [q_retrace, ht, ih (by omega)]
    have hidx : n - (n - (k + 1) + 1) = k := by omega
    simp only [Prod.mk.injEq]
    constructor
    · rw [retraceTarget, hidx]
      ring_nf
    · conv_rhs => rw [retraceCarry]
      ring

/-- C3: the Retrace recursion computes, for `t` from `n_steps − 1` down to `0`,
`raw_target_t = reward_t + γ·(1 − done_t)·carry` with `carry` initialized to
the bootstrap value past the end of the window, stores `raw_target_t` as the
Q-regression target for step `t`, and updates
`carry = value_t + min 1 ρ_t · (raw_target_t − Q_taken_t)`; the returned
per-step targets are exactly the `raw_target_t` values in forward time order. -/
theorem retrace_recursion_matches_spec (gamma : ℚ) (reward done qi v rho : ℕ → ℚ) (n : ℕ) :
    (q_retrace gamma ((List.range n).map reward) ((List.range n).map done)
        ((List.range n).map qi) ((List.range n).map v) ((List.range n).map rho) (v n)).1
      = (List.range n).map (retraceTarget gamma reward done qi v rho (v n) n) := by
  have h := q_retrace_go gamma reward done qi v rho (v n) n n le_rfl
  rw [Nat.sub_self] at h
  rw [List.range_eq_range', h]

lemma retraceCarry_nstep (gamma : ℚ) (reward done qi v rho : ℕ → ℚ) (n : ℕ)
    (hd : ∀ s, s < n → done s = 0) (hr : ∀ s, s < n → min 1 (rho s) = 1)
    (hq : ∀ s, s < n → qi s = v s) :
    ∀ k, k ≤ n → retraceCarry gamma reward done qi v rho (v n) n k
      = (Finset.range k).sum (fun i => gamma ^ i * reward (n - k + i)) + gamma ^ k * v n := by
  intro k
  induction k with
  | zero => simp [retraceCarry]
  | succ k ih =>
    intro hk
    have hlt : n - (k + 1) < n := by omega
    rw [retraceCarry, hd _ hlt, hq _ hlt, hr _ hlt, ih (by omega)]
    rw [Finset.sum_range_succ']
    have hsum : (Finset.range k).sum (fun i => gamma ^ (i + 1) * reward (n - (k + 1) + (i + 1)))
        = gamma * (Finset.range k).sum (fun i => gamma ^ i * reward (n - k + i)) := by
      rw [Finset.mul_sum]
      refine Finset.sum_congr rfl fun i _ => ?_
      have hi : n - (k + 1) + (i + 1) = n - k + i := by omega
      rw [hi, pow_succ]
      ring
    rw [hsum]
    simp only [pow_zero, Nat.add_zero, pow_succ]
    ring

/-- C4: with `ρ̄ ≡ 1`, a perfectly calibrated critic (`Q_taken = value` at every
step) and no terminations inside the window, the Retrace target at step `t`
equals the standard n-step bootstrapped return
`Σ_{i < n−t} γ^i · reward_{t+i} + γ^{n−t} · V_n`. -/
theorem retrace_identity_calibrated (gamma : ℚ) (reward done qi v rho : ℕ → ℚ) (n t : ℕ)
    (hd : ∀ s, s < n → done s = 0) (hr : ∀ s, s < n → min 1 (rho s) = 1)
    (hq : ∀ s, s < n → qi s = v s) (htn : t < n) :
    ((q_retrace gamma ((List.range n).map reward) ((List.range n).map done)
        ((List.range n).map qi) ((List.range n).map v) ((List.range n).map rho) (v n)).1).getD t 0
      = (Finset.range (n - t)).sum (fun i => gamma ^ i * reward (t + i)) + gamma ^ (n - t) * v n := by
  have h := q_retrace_go gamma reward done qi v rho (v n) n n le_rfl
  rw [Nat.sub_self] at h
  rw [List.range_eq_range', h]
  rw [← List.range_eq_range']
  have hget : (((List.range n).map
      (retraceTarget gamma reward done qi v rho (v n) n)).getD t 0)
      = retraceTarget gamma reward done qi v rho (v n) n t := by
    rw [List.getD_eq_getElem?_getD, List.getElem?_map, List.getElem?_range htn]
    rfl
  rw [hget, retraceTarget, hd _ htn,
    retraceCarry_nstep gamma reward done qi v rho n hd hr hq (n - (t + 1)) (by omega)]
  have hn : n - (n - (t + 1)) = t + 1 := by omega
  have hnt : n - t = (n - (t + 1)) + 1 := by omega
  rw [hn, hnt, Finset.sum_range_succ']
  have hsum : (Finset.range (n - (t + 1))).sum (fun i => gamma ^ (i + 1) * reward (t + (i + 1)))
      = gamma * (Finset.range (n - (t + 1))).sum (fun i => gamma ^ i * reward (t + 1 + i)) := by
    rw [Finset.mul_sum]
    refine Finset.sum_congr rfl fun i _ => ?_
    have hi : t + (i + 1) = t + 1 + i := by omega
    rw [hi, pow_succ]
    ring
  rw [hsum]
  simp only [pow_zero, Nat.add_zero, pow_succ]
  ring

/-- Concrete instance of `retrace_identity_calibrated`: the 3-step episode with
rewards `[1, 0, 2]`, `γ = 0.9`, zero critic: target at `t = 0` is
`1 + 0.9·0 + 0.81·2 = 2.62`. -/
theorem retrace_identity_calibrated_witness :
    (0 : ℕ) < 3 ∧
    ((q_retrace (9/10) ((List.range 3).map (fun s => ([1, 0, 2] : List ℚ).getD s 0))
        ((List.range 3).map (fun _ => (0 : ℚ))) ((List.range 3).map (fun _ => (0 : ℚ)))
        ((List.range 3).map (fun _ => (0 : ℚ))) ((List.range 3).map (fun _ => (1 : ℚ)))
        ((fun _ => (0 : ℚ)) 3)).1).getD 0 0 = 131/50 := by
  refine ⟨by decide, ?_⟩
  have h := retrace_identity_calibrated (9/10) (fun s => ([1, 0, 2] : List ℚ).getD s 0)
    (fun _ => (0 : ℚ)) (fun _ => (0 : ℚ)) (fun _ => (0 : ℚ)) (fun _ => (1 : ℚ)) 3 0
    (by intro s _; rfl) (by intro s _; exact min_self 1) (by intro s _; rfl) (by decide)
  rw [h]
  rw [Finset.sum_range_succ, Finset.sum_range_succ, Finset.sum_range_succ, Finset.sum_range_zero]
  norm_num

/-- C5: with `γ = 0` every Retrace target collapses to `reward_t` exactly,
independent of the importance weights, the value estimates, the Q estimates,
the done flags, and the bootstrap value. -/
theorem retrace_gamma_zero (reward done qi v rho : ℕ → ℚ) (boot : ℚ) (n : ℕ) :
    (q_retrace 0 ((List.range n).map reward) ((List.range n).map done)
        ((List.range n).map qi) ((List.range n).map v) ((List.range n).map rho) boot).1
      = (List.range n).map reward := by
  have h := q_retrace_go 0 reward done qi v rho boot n n le_rfl
  rw [Nat.sub_self] at h
  rw [List.range_eq_range', h]
  refine List.map_congr_left fun t _ => ?_
  rw [retraceTarget]
  ring

/-! ## Frame-stack reconstruction (`Buffer.decode`) -/

/-- The loop `for i in range(n_stack)` of `Buffer.decode`.  At iteration `i`
the row `obs[-(i + 1)]` receives `x_var` starting at offset `i`
(`obs[-(i + 1), i:] = x_var`; `obs` is zero-initialized, giving the
`replicate pad 0` padding), then `x_var = x_var[:-1] * y_var` and
`y_var = y_var[1:]`.  The returned list holds the written rows in iteration
order, i.e. entry `i` is row `obs[n_stack - 1 - i]`. -/
def decodeRows : List ℤ → List ℤ → ℕ → ℕ → List (List ℤ)
  | _, _, _, 0 => []
  | x, y, pad, i + 1 =>
    (List.replicate pad 0 ++ x) :: decodeRows (x.dropLast.zipWith (· * ·) y) (y.drop 1) (pad + 1) i

/-- Embedding of `Buffer.decode` for one environment with scalar frames (all
spatial axes are elementwise).  `encObs` are the `n_steps + n_stack` raw frames
of the sampled window, `dones` the `n_steps` termination flags as 0/1 integers.
`y_var` is built by `y_var[:3] = 1.0; y_var[3:] = 1.0 - dones` — note the
**hardcoded** `3`; the slice assignment raises `ValueError` unless
`len(y_var) - 3 = (n_steps + n_stack - 1) - 3` equals `n_steps` (the guard
below, which forces `n_stack = 4`), and reshaping `enc_obs`/`dones` requires
their lengths to be `n_steps + n_stack` / `n_steps`.  The final
`obs[:, 3:].transpose(...).reshape(...)` yields, for step `t = 0 … n_steps`,
the stack `[obs[0][t + 3], …, obs[n_stack - 1][t + 3]]` (oldest lag first,
current frame last); row `obs[s]` was written at iteration `n_stack - 1 - s`. -/
def decode (n_stack n_steps : ℕ) (encObs dones : List ℤ) : Option (List (List ℤ)) :=
  if encObs.length = n_steps + n_stack ∧ dones.length = n_steps ∧
      (n_steps + n_stack - 1) - 3 = n_steps then
    let y0 := List.replicate 3 1 ++ dones.map (fun d => 1 - d)
    let rows := decodeRows encObs y0 0 n_stack
    some ((List.range (n_steps + 1)).map (fun t =>
      (List.range n_stack).map (fun s => (rows.getD (n_stack - 1 - s) []).getD (t + 3) 0)))
  else none

/-- C1 (code bug): the spec requires `decode` to reconstruct stacked windows
with zeroed cross-boundary lags for every `n_stack ∈ {1, 2, 4}`, but the code
hardcodes the lookback count `3 = 4 - 1` (`y_var[3:]`, `y_var[:3]`,
`obs[:, 3:]`) instead of `n_stack - 1`: on the deterministic fixture
(`n_steps = 4`, one environment, frames numbered from 1, termination at step
`t = 1`) the mask slice-assignment shape mismatches and `decode` raises for
`n_stack ∈ {1, 2}`, while for `n_stack = 4` it returns the hand-computed
stacks, whose lag positions reaching back across step 1 are all zero. -/
theorem decode_hardcoded_lookback_bug :
    decode 2 4 [1, 2, 3, 4, 5, 6] [0, 1, 0, 0] = none ∧
    decode 1 4 [1, 2, 3, 4, 5] [0, 1, 0, 0] = none ∧
    decode 4 4 [1, 2, 3, 4, 5, 6, 7, 8] [0, 1, 0, 0] =
      some [[1, 2, 3, 4], [2, 3, 4, 5], [0, 0, 0, 6], [0, 0, 6, 7], [0, 6, 7, 8]] := by
  refine ⟨by decide, by decide, by decide⟩

/-! ## Trust-region gradient projection (`Model.__init__`, `if trust_region:`) -/

/-- The constant `eps = 1e-6` from `Model.__init__`. -/
def trEps : ℚ := 1 / 1000000

/-- Embedding of `tf.reduce_sum(a * b, axis=-1)` for one sample: the action axis is a list. -/
def sumProd (a b : List ℚ) : ℚ := (a.zipWith (· * ·) b).sum

/-- The per-sample adjustment
`adj = tf.maximum(0.0, (k_dot_g - delta) / (reduce_sum(square(kl_grad)) + eps))`. -/
def trAdj (delta : ℚ) (k g : List ℚ) : ℚ :=
  max 0 ((sumProd k g - delta) / (sumProd k k + trEps))

/-- The projected gradient `grad = grad - reshape(adj, ...) * kl_grad` for one
sample: elementwise `g_i - adj * k_i` over the action axis. -/
def trProjGrad (delta : ℚ) (k g : List ℚ) : List ℚ :=
  g.zipWith (fun gi ki => gi - trAdj delta k g * ki) k

/-- The projection as the spec words it: `g' = g − max(0, (Σ k·g − δ) / (Σ k² + ε))·k`. -/
def trProjGradSpec (delta : ℚ) (k g : List ℚ) : List ℚ :=
  g.zipWith (fun gi ki => gi - max 0 ((sumProd k g - delta) / (sumProd k k + trEps)) * ki) k

lemma sumProd_self_nonneg : ∀ k : List ℚ, 0 ≤ sumProd k k
  | [] => le_refl 0
  | a :: k => by
    have ih := sumProd_self_nonneg k
    simp only [sumProd, List.zipWith_cons_cons, List.sum_cons] at *
    exact add_nonneg (mul_self_nonneg a) ih

lemma zipWith_left_of_length_eq : ∀ (g k : List ℚ), k.length = g.length →
    List.zipWith (fun gi _ => gi) g k = g
  | [], [], _ => rfl
  | [], _ :: _, h => by simp at h
  | _ :: _, [], h => by simp at h
  | a :: g, b :: k, h => by
    simp only [List.zipWith_cons_cons]
    rw [zipWith_left_of_length_eq g k (by simpa using h)]

/-- C6: with `k` the KL gradient direction and `g` the raw policy gradient over
actions (same length, one sample), the projected gradient equals
`g − max(0, (Σ k·g − δ)/(Σ k² + ε))·k` elementwise, and equals `g` unchanged
whenever `Σ k·g ≤ δ`. -/
theorem trust_region_projection (delta : ℚ) (k g : List ℚ) (hlen : k.length = g.length) :
    trProjGrad delta k g = trProjGradSpec delta k g ∧
    (sumProd k g ≤ delta → trProjGrad delta k g = g) := by
  refine ⟨rfl, fun hle => ?_⟩
  have hadj : trAdj delta k g = 0 := by
    rw [trAdj, max_eq_left]
    apply div_nonpos_of_nonpos_of_nonneg
    · linarith
    · have := sumProd_self_nonneg k
      have heps : (0 : ℚ) < trEps := by norm_num [trEps]
      linarith
  rw [trProjGrad, hadj]
  simp only [zero_mul, sub_zero]
  exact zipWith_left_of_length_eq g k hlen

/-- Concrete instance of `trust_region_projection`: `k = [1, 0]`,
`g = [1/2, 3]`, `δ = 1`; the dot product `1/2` is below `δ`, so the gradient
passes through unchanged. -/
theorem trust_region_projection_witness :
    trProjGrad 1 [1, 0] [1/2, 3] = [1/2, 3] :=
  (trust_region_projection 1 [1, 0] [1/2, 3] (by decide)).2
    (by norm_num [sumProd, List.zipWith_cons_cons])

/-! ## Replay buffer (`buffer.py`) -/

/-- One rollout batch as handed to `Buffer.put`.  The per-slot content of each
backing array is kept per environment: `enc_obs[i]` is environment `i`'s
`n_steps + n_stack` raw frames, `dones[i]` its `n_steps` termination flags
(0/1), and the remaining arrays (whose contents the buffer never inspects) are
one opaque value per environment. -/
structure RolloutBatch where
  enc_obs : List (List ℤ)
  actions : List ℤ
  rewards : List ℤ
  mus : List ℤ
  dones : List (List ℤ)
  masks : List ℤ
deriving DecidableEq

/-- The state of `Buffer`.  The six backing arrays are maps from slot index to
the stored per-environment payloads; `none` marks a slot that was never
written (the modelled code paths never read `np.empty` garbage). -/
structure Buffer where
  n_env : ℕ
  n_steps : ℕ
  n_stack : ℕ
  size : ℕ
  enc_obs : ℕ → Option (List (List ℤ))
  actions : ℕ → Option (List ℤ)
  rewards : ℕ → Option (List ℤ)
  mus : ℕ → Option (List ℤ)
  dones : ℕ → Option (List (List ℤ))
  masks : ℕ → Option (List ℤ)
  next_idx : ℕ
  num_in_buffer : ℕ

/-- Embedding of `Buffer.__init__`: `self.size = size // n_steps` (buffer size in slots of
one rollout batch each), empty storage, `next_idx = 0`, `num_in_buffer = 0`.
Python raises `ZeroDivisionError` when `n_steps = 0`, hence the guard; no
other check is performed at construction. -/
def Buffer.init (n_env n_steps n_stack sizeSteps : ℕ) : Option Buffer :=
  if n_steps = 0 then none
  else some
    { n_env := n_env, n_steps := n_steps, n_stack := n_stack,
      size := sizeSteps / n_steps,
      enc_obs := fun _ => none, actions := fun _ => none, rewards := fun _ => none,
      mus := fun _ => none, dones := fun _ => none, masks := fun _ => none,
      next_idx := 0, num_in_buffer := 0 }

/-- Embedding of `Buffer.has_atleast`: `num_in_buffer >= frames // n_steps`. -/
def Buffer.has_atleast (b : Buffer) (frames : ℕ) : Bool :=
  decide (frames / b.n_steps ≤ b.num_in_buffer)

/-- Embedding of `Buffer.can_sample`: `num_in_buffer > 0`. -/
def Buffer.can_sample (b : Buffer) : Bool :=
  decide (0 < b.num_in_buffer)

/-- Embedding of `Buffer.put`: writes the batch into slot `next_idx` of all six arrays,
then `next_idx = (next_idx + 1) % size` and
`num_in_buffer = min(size, num_in_buffer + 1)`.  Writing needs
`next_idx < size` (with `size = 0` the write `self.enc_obs[self.next_idx]`
raises `IndexError` on the zero-length first axis), hence the guard. -/
def Buffer.put (b : Buffer) (batch : RolloutBatch) : Option Buffer :=
  if b.next_idx < b.size then
    some { b with
      enc_obs := Function.update b.enc_obs b.next_idx (some batch.enc_obs),
      actions := Function.update b.actions b.next_idx (some batch.actions),
      rewards := Function.update b.rewards b.next_idx (some batch.rewards),
      mus := Function.update b.mus b.next_idx (some batch.mus),
      dones := Function.update b.dones b.next_idx (some batch.dones),
      masks := Function.update b.masks b.next_idx (some batch.masks),
      next_idx := (b.next_idx + 1) % b.size,
      num_in_buffer := min b.size (b.num_in_buffer + 1) }
  else none

/-- A sequence of `put` calls. -/
def Buffer.putMany (b : Buffer) (l : List RolloutBatch) : Option Buffer :=
  l.foldlM Buffer.put b

/-- Embedding of `Buffer.take`: `out[i] = arr[idx[i], envx[i]]` for `envx = arange(n_env)`;
reading environment `i` of the sampled slot `idx[i]`. -/
def Buffer.take (b : Buffer) (arr : ℕ → Option (List γ)) (idx : List ℕ) : Option (List γ) :=
  (idx.zip (List.range b.n_env)).mapM fun p => (arr p.1).bind fun row => row[p.2]?

/-- The tuple returned by `Buffer.get`:
`obs, actions, rewards, mus, dones, masks`. -/
structure GetResult where
  obs : List (List (List ℤ))
  actions : List ℤ
  rewards : List ℤ
  mus : List ℤ
  dones : List (List ℤ)
  masks : List ℤ

/-- Embedding of `Buffer.get`.  Here `idx` stands for the `np.random.randint(0, num_in_buffer,
n_env)` draw (one slot per environment), passed in explicitly.  The bare
`assert self.can_sample()` raises `AssertionError`; the `take` reads raise
`IndexError` on an out-of-range index, and `decode` raises `ValueError` on a
shape mismatch.  No field of `self` is assigned anywhere in the method, so the
returned state is the input state. -/
def Buffer.get (b : Buffer) (idx : List ℕ) : Except String (GetResult × Buffer) :=
  if b.can_sample then
    match b.take b.dones idx with
    | none => .error "IndexError"
    | some dns =>
      match b.take b.enc_obs idx with
      | none => .error "IndexError"
      | some encs =>
        match (encs.zip dns).mapM (fun p => decode b.n_stack b.n_steps p.1 p.2) with
        | none => .error "ValueError"
        | some obs =>
          match b.take b.actions idx, b.take b.rewards idx,
              b.take b.mus idx, b.take b.masks idx with
          | some acts, some rews, some muss, some mks =>
            .ok (⟨obs, acts, rews, muss, dns, mks⟩, b)
          | _, _, _, _ => .error "IndexError"
  else .error "AssertionError"

/-- Slot `j` of the buffer holds exactly the given batch, across all six
backing arrays. -/
def Buffer.slotEq (b : Buffer) (j : ℕ) (batch : RolloutBatch) : Prop :=
  b.enc_obs j = some batch.enc_obs ∧ b.actions j = some batch.actions ∧
  b.rewards j = some batch.rewards ∧ b.mus j = some batch.mus ∧
  b.dones j = some batch.dones ∧ b.masks j = some batch.masks

/-- C2 counterexample: requesting a buffer of `size = 1` step with
`n_steps = 2` (so `size // n_steps = 0` rollout-batch slots) does NOT fail at
construction — `Buffer.__init__` returns normally — and the failure only
surfaces at the first `put`. -/
theorem buffer_undersize_counterexample :
    (Buffer.init 1 2 4 1).isSome = true ∧
    ((Buffer.init 1 2 4 1).bind fun b => b.put ⟨[[0]], [0], [0], [0], [[0]], [0]⟩) = none :=
  ⟨rfl, rfl⟩

/-- C2 (corrected): an unsatisfiable buffer-size-vs-`n_steps` configuration
(`size < n_steps`, hence zero rollout-batch slots) is accepted silently by
`Buffer.__init__` (which only computes `size // n_steps = 0`); the failure
occurs at the first `put` — before any data is stored and before any `get` is
possible — not at construction. -/
theorem buffer_undersize_fails_at_first_put (n_env n_steps n_stack sz : ℕ)
    (hns : 0 < n_steps) (hsz : sz < n_steps) :
    ∃ b, Buffer.init n_env n_steps n_stack sz = some b ∧ b.size = 0 ∧
      ∀ batch, b.put batch = none := by
  rw [Buffer.init, if_neg (by omega)]
  refine ⟨_, rfl, ?_, ?_⟩
  · exact Nat.div_eq_of_lt hsz
  · intro batch
    rw [Buffer.put, if_neg]
    simp only [not_lt]
    exact le_of_eq (Nat.div_eq_of_lt hsz)

/-- Concrete instance of `buffer_undersize_fails_at_first_put`:
`size = 1`, `n_steps = 2`. -/
theorem buffer_undersize_fails_at_first_put_witness :
    ∃ b, Buffer.init 3 2 4 1 = some b ∧ b.size = 0 ∧
      ∀ batch, b.put batch = none :=
  buffer_undersize_fails_at_first_put 3 2 4 1 (by decide) (by decide)

lemma putMany_append (b : Buffer) (l₁ l₂ : List RolloutBatch) :
    b.putMany (l₁ ++ l₂) = (b.putMany l₁).bind fun b' => b'.putMany l₂ := by
  induction l₁ generalizing b with
  | nil => simp [Buffer.putMany]
  | cons x l ih =>
    simp only [Buffer.putMany, List.cons_append, List.foldlM_cons] at *
    cases h : b.put x <;> simp [h, ih]

lemma putMany_singleton (b : Buffer) (x : RolloutBatch) : b.putMany [x] = b.put x := by
  rw [Buffer.putMany, List.foldlM_cons]
  cases b.put x <;> simp

lemma succ_mod (j s : ℕ) : (j % s + 1) % s = (j + 1) % s := by
  conv_lhs => rw [Nat.add_mod]
  conv_rhs => rw [Nat.add_mod]
  rw [Nat.mod_mod_of_dvd j dvd_rfl]

/-- Invariant of the circular writes: starting from a fresh buffer with
`slots ≥ 1` slots, after `j` calls to `put` the counters are
`num_in_buffer = min slots j` and `next_idx = j % slots`, and every one of the
last `min slots j` batches sits in its slot `m % slots`. -/
lemma putMany_circular (slots : ℕ) (hs : 0 < slots) (bs : ℕ → RolloutBatch) :
    ∀ (j : ℕ) (b0 : Buffer), b0.size = slots → b0.next_idx = 0 → b0.num_in_buffer = 0 →
      ∃ bj, b0.putMany ((List.range j).map bs) = some bj
        ∧ bj.size = slots ∧ bj.num_in_buffer = min slots j ∧ bj.next_idx = j % slots
        ∧ ∀ m, m < j → j ≤ m + slots → bj.slotEq (m % slots) (bs m) := by
  intro j
  induction j with
  | zero =>
    intro b0 hsize hnext hnum
    refine ⟨b0, by simp [Buffer.putMany], hsize, by omega, by simp [hnext], ?_⟩
    intro m hm
    omega
  | succ j ih =>
    intro b0 hsize hnext hnum
    obtain ⟨bj, hchain, hjsize, hjnum, hjnext, hjcont⟩ := ih b0 hsize hnext hnum
    have hlt : bj.next_idx < bj.size := by
      rw [hjnext, hjsize]
      exact Nat.mod_lt j hs
    have hput : bj.put (bs j) = some
        { bj with
          enc_obs := Function.update bj.enc_obs bj.next_idx (some (bs j).enc_obs),
          actions := Function.update bj.actions bj.next_idx (some (bs j).actions),
          rewards := Function.update bj.rewards bj.next_idx (some (bs j).rewards),
          mus := Function.update bj.mus bj.next_idx (some (bs j).mus),
          dones := Function.update bj.dones bj.next_idx (some (bs j).dones),
          masks := Function.update bj.masks bj.next_idx (some (bs j).masks),
          next_idx := (bj.next_idx + 1) % bj.size,
          num_in_buffer := min bj.size (bj.num_in_buffer + 1) } := by
      rw [Buffer.put, if_pos hlt]
    refine ⟨{ bj with
      enc_obs := Function.update bj.enc_obs bj.next_idx (some (bs j).enc_obs),
      actions := Function.update bj.actions bj.next_idx (some (bs j).actions),
      rewards := Function.update bj.rewards bj.next_idx (some (bs j).rewards),
      mus := Function.update bj.mus bj.next_idx (some (bs j).mus),
      dones := Function.update bj.dones bj.next_idx (some (bs j).dones),
      masks := Function.update bj.masks bj.next_idx (some (bs j).masks),
      next_idx := (bj.next_idx + 1) % bj.size,
      num_in_buffer := min bj.size (bj.num_in_buffer + 1) }, ?_, ?_, ?_, ?_, ?_⟩
    · rw [List.range_succ, List.map_append, putMany_append, hchain]
      simp only [Option.some_bind, List.map_cons, List.map_nil]
      rw [putMany_singleton, hput]
    · exact hjsize
    · show min bj.size (bj.num_in_buffer + 1) = min slots (j + 1)
      rw [hjsize, hjnum]
      omega
    · show (bj.next_idx + 1) % bj.size = (j + 1) % slots
      rw [hjnext, hjsize]
      exact succ_mod j slots
    · intro m hm hle
      rcases Nat.lt_succ_iff_lt_or_eq.1 hm with hmj | rfl
      · have hne : m % slots ≠ j % slots := by
          intro heq
          have hdvd : slots ∣ j - m := (Nat.modEq_iff_dvd' (le_of_lt hmj)).1 heq
          have := Nat.le_of_dvd (by omega) hdvd
          omega
        have hrot : m % slots ≠ bj.next_idx := by rw [hjnext]; exact hne
        obtain ⟨h1, h2, h3, h4, h5, h6⟩ := hjcont m hmj (by omega)
        dsimp only [Buffer.slotEq]
        simp only [Function.update_noteq hrot]
        exact ⟨h1, h2, h3, h4, h5, h6⟩
      · dsimp only [Buffer.slotEq]
        rw [← hjnext]
        simp [Function.update_same]

/-- C7: for every `slots ≥ 1` and `k ≥ 0`, folding `put` over `slots + k`
batches from a freshly constructed buffer (requested step-size
`slots * n_steps`, so `size = slots`) (a) keeps, after every prefix of `j`
puts, `num_in_buffer = min slots j ≤ slots` and `next_idx = j % slots` — the
slot the next `put` overwrites — and (b) ends with `num_in_buffer = slots` and
the six arrays holding exactly the last `slots` batches, batch `m` in slot
`m % slots`, the oldest batches evicted first. -/
theorem buffer_circularity (n_env n_steps n_stack slots k : ℕ) (bs : ℕ → RolloutBatch)
    (hns : 0 < n_steps) (hs : 0 < slots) :
    (∀ j, ∃ bj,
        ((Buffer.init n_env n_steps n_stack (slots * n_steps)).bind fun b0 =>
            b0.putMany ((List.range j).map bs)) = some bj
          ∧ bj.size = slots ∧ bj.num_in_buffer = min slots j ∧ bj.next_idx = j % slots) ∧
    (∃ bf,
        ((Buffer.init n_env n_steps n_stack (slots * n_steps)).bind fun b0 =>
            b0.putMany ((List.range (slots + k)).map bs)) = some bf
          ∧ bf.num_in_buffer = slots ∧ bf.next_idx = (slots + k) % slots
          ∧ ∀ m, k ≤ m → m < slots + k → bf.slotEq (m % slots) (bs m)) := by
  have hinit : Buffer.init n_env n_steps n_stack (slots * n_steps) = some
      { n_env := n_env, n_steps := n_steps, n_stack := n_stack,
        size := slots * n_steps / n_steps,
        enc_obs := fun _ => none, actions := fun _ => none, rewards := fun _ => none,
        mus := fun _ => none, dones := fun _ => none, masks := fun _ => none,
        next_idx := 0, num_in_buffer := 0 } := by
    rw [Buffer.init, if_neg (by omega)]
  have hdiv : slots * n_steps / n_steps = slots := Nat.mul_div_cancel slots hns
  have hstart : ∀ j, ∃ bj,
      Buffer.putMany
        { n_env := n_env, n_steps := n_steps, n_stack := n_stack,
          size := slots * n_steps / n_steps,
          enc_obs := fun _ => none, actions := fun _ => none, rewards := fun _ => none,
          mus := fun _ => none, dones := fun _ => none, masks := fun _ => none,
          next_idx := 0, num_in_buffer := 0 } ((List.range j).map bs) = some bj
        ∧ bj.size = slots ∧ bj.num_in_buffer = min slots j ∧ bj.next_idx = j % slots
        ∧ ∀ m, m < j → j ≤ m + slots → bj.slotEq (m % slots) (bs m) :=
    fun j => putMany_circular slots hs bs j _ hdiv rfl rfl
  constructor
  · intro j
    obtain ⟨bj, hc, h1, h2, h3, _⟩ := hstart j
    exact ⟨bj, by rw [hinit, Option.some_bind, hc], h1, h2, h3⟩
  · obtain ⟨bf, hc, _, h2, h3, h4⟩ := hstart (slots + k)
    refine ⟨bf, by rw [hinit, Option.some_bind, hc], by omega, h3, ?_⟩
    intro m hkm hm
    exact h4 m hm (by omega)

/-- A batch sequence with distinguishable contents, for the witness below. -/
def sampleBatches : ℕ → RolloutBatch := fun m =>
  ⟨[[Int.ofNat m]], [Int.ofNat m], [Int.ofNat m], [Int.ofNat m], [[Int.ofNat m]], [Int.ofNat m]⟩

/-- Concrete instance of `buffer_circularity`: 2 slots, 3 puts. -/
theorem buffer_circularity_witness :
    (∀ j, ∃ bj,
        ((Buffer.init 1 1 4 (2 * 1)).bind fun b0 =>
            b0.putMany ((List.range j).map sampleBatches)) = some bj
          ∧ bj.size = 2 ∧ bj.num_in_buffer = min 2 j ∧ bj.next_idx = j % 2) ∧
    (∃ bf,
        ((Buffer.init 1 1 4 (2 * 1)).bind fun b0 =>
            b0.putMany ((List.range (2 + 1)).map sampleBatches)) = some bf
          ∧ bf.num_in_buffer = 2 ∧ bf.next_idx = (2 + 1) % 2
          ∧ ∀ m, 1 ≤ m → m < 2 + 1 → bf.slotEq (m % 2) (sampleBatches m)) :=
  buffer_circularity 1 1 4 2 1 sampleBatches (by decide) (by decide)

/-- C9 counterexample: after 2 puts with `n_steps = 2`, the buffer stores
`num_in_buffer * n_steps = 4` steps per environment, yet
`has_atleast(5) = num_in_buffer >= 5 // 2 = 2` reports `true` although
`4 < 5`: the threshold is compared after flooring, not against the exact
stored step-count. -/
theorem has_atleast_counterexample :
    ((Buffer.init 1 2 4 4).bind fun b0 =>
        b0.putMany [⟨[[0]], [0], [0], [0], [[0]], [0]⟩, ⟨[[0]], [0], [0], [0], [[0]], [0]⟩]).map
      (fun b => (b.has_atleast 5, b.num_in_buffer * b.n_steps)) = some (true, 4) ∧
    ¬ (5 ≤ 4) :=
  ⟨rfl, by decide⟩

/-- C9 (corrected): `has_atleast frames` compares `num_in_buffer` against
`frames // n_steps`, so it is true exactly when the stored step-count
`num_in_buffer * n_steps` reaches `frames` rounded DOWN to a multiple of
`n_steps` (not `frames` itself). -/
theorem has_atleast_floor_threshold (b : Buffer) (frames : ℕ) (h : 0 < b.n_steps) :
    b.has_atleast frames = true ↔
      b.n_steps * (frames / b.n_steps) ≤ b.num_in_buffer * b.n_steps := by
  rw [Buffer.has_atleast, decide_eq_true_iff, mul_comm b.num_in_buffer b.n_steps]
  constructor
  · exact fun hh => Nat.mul_le_mul_left _ hh
  · exact fun hh => Nat.le_of_mul_le_mul_left hh h

/-- Concrete instance of `has_atleast_floor_threshold` at the counterexample
state: `frames = 5`, `n_steps = 2`, `num_in_buffer = 2`. -/
theorem has_atleast_floor_threshold_witness :
    ({ n_env := 1, n_steps := 2, n_stack := 4, size := 2,
       enc_obs := fun _ => none, actions := fun _ => none, rewards := fun _ => none,
       mus := fun _ => none, dones := fun _ => none, masks := fun _ => none,
       next_idx := 0, num_in_buffer := 2 : Buffer }.has_atleast 5 = true ↔
      2 * (5 / 2) ≤ 2 * 2) :=
  has_atleast_floor_threshold _ 5 (by decide)

lemma mapM_isSome (f : α → Option β) :
    ∀ l : List α, (∀ a ∈ l, (f a).isSome) → ∃ out, l.mapM f = some out
  | [], _ => ⟨[], rfl⟩
  | a :: l, h => by
    obtain ⟨b, hb⟩ := Option.isSome_iff_exists.1 (h a (List.mem_cons_self a l))
    obtain ⟨out, hout⟩ := mapM_isSome f l fun x hx => h x (List.mem_cons_of_mem a hx)
    refine ⟨b :: out, ?_⟩
    rw [List.mapM_cons, hb, hout]
    rfl

lemma mapM_mem (f : α → Option β) :
    ∀ (l : List α) (out : List β), l.mapM f = some out → ∀ y ∈ out, ∃ a ∈ l, f a = some y := by
  intro l
  induction l with
  | nil =>
    intro out hout y hy
    simp only [List.mapM_nil] at hout
    rw [show out = [] from by injection hout with h; exact h.symm] at hy
    simp at hy
  | cons a l ih =>
    intro out hout y hy
    rw [List.mapM_cons] at hout
    cases hfa : f a with
    | none => rw [hfa] at hout; simp at hout
    | some b =>
      rw [hfa] at hout
      cases hrest : l.mapM f with
      | none => rw [hrest] at hout; simp at hout
      | some rest =>
        rw [hrest] at hout
        have : out = b :: rest := by
          simpa using hout.symm
        subst this
        rcases List.mem_cons.1 hy with rfl | hmem
        · exact ⟨a, List.mem_cons_self a l, hfa⟩
        · obtain ⟨x, hx, hfx⟩ := ih rest hrest y hmem
          exact ⟨x, List.mem_cons_of_mem a hx, hfx⟩

lemma take_isSome (b : Buffer) (arr : ℕ → Option (List γ)) (idx : List ℕ)
    (h : ∀ p ∈ idx.zip (List.range b.n_env), ∃ row, arr p.1 = some row ∧ p.2 < row.length) :
    ∃ out, b.take arr idx = some out := by
  apply mapM_isSome
  intro p hp
  obtain ⟨row, hrow, hlen⟩ := h p hp
  rw [hrow, Option.some_bind, Option.isSome_iff_exists]
  exact ⟨row[p.2], List.getElem?_eq_getElem hlen⟩

/-- All filled slots of the buffer hold consistently shaped data: each of the
six arrays holds one payload per environment, encoded observations carry
`n_steps + n_stack` frames and done rows `n_steps` flags. -/
def WellFormedSlot (b : Buffer) (j : ℕ) : Prop :=
  ∃ e a r mu d mk,
    b.enc_obs j = some e ∧ e.length = b.n_env ∧
      (∀ x ∈ e, x.length = b.n_steps + b.n_stack) ∧
    b.dones j = some d ∧ d.length = b.n_env ∧ (∀ x ∈ d, x.length = b.n_steps) ∧
    b.actions j = some a ∧ a.length = b.n_env ∧
    b.rewards j = some r ∧ r.length = b.n_env ∧
    b.mus j = some mu ∧ mu.length = b.n_env ∧
    b.masks j = some mk ∧ mk.length = b.n_env

/-- C8 (corrected): `get` on a buffer that cannot sample fails with a bare
`AssertionError` (the code has no `EmptyBufferError`); and whenever
`can_sample()` is true, `get` succeeds — given the standard `n_stack = 4`
configuration (the only one `decode` supports), well-formed filled slots, and
slot draws in `[0, num_in_buffer)` as produced by `np.random.randint`. -/
theorem get_gating (b : Buffer) (idx : List ℕ) :
    (b.can_sample = false → b.get idx = .error "AssertionError") ∧
    (b.can_sample = true → idx.length = b.n_env → (∀ i ∈ idx, i < b.num_in_buffer) →
      (∀ j, j < b.num_in_buffer → WellFormedSlot b j) → b.n_stack = 4 →
      ∃ out, b.get idx = .ok out) := by
  constructor
  · intro hc
    rw [Buffer.get, if_neg]
    simp [hc]
  · intro hc _ hidx hwf hstack
    have hpair : ∀ p ∈ idx.zip (List.range b.n_env), p.1 < b.num_in_buffer ∧ p.2 < b.n_env := by
      intro p hp
      obtain ⟨h1, h2⟩ := List.of_mem_zip hp
      exact ⟨hidx _ h1, List.mem_range.1 h2⟩
    have hdcond : ∀ p ∈ idx.zip (List.range b.n_env),
        ∃ row, b.dones p.1 = some row ∧ p.2 < row.length := by
      intro p hp
      obtain ⟨hp1, hp2⟩ := hpair p hp
      obtain ⟨e, a, r, mu, d, mk, _, _, _, hdj, hdlen, _, _, _, _, _, _, _, _, _⟩ := hwf p.1 hp1
      exact ⟨d, hdj, by rw [hdlen]; exact hp2⟩
    obtain ⟨dns, hdns⟩ := take_isSome b b.dones idx hdcond
    have hecond : ∀ p ∈ idx.zip (List.range b.n_env),
        ∃ row, b.enc_obs p.1 = some row ∧ p.2 < row.length := by
      intro p hp
      obtain ⟨hp1, hp2⟩ := hpair p hp
      obtain ⟨e, a, r, mu, d, mk, hej, helen, _, _, _, _, _, _, _, _, _, _, _, _⟩ := hwf p.1 hp1
      exact ⟨e, hej, by rw [helen]; exact hp2⟩
    obtain ⟨encs, hencs⟩ := take_isSome b b.enc_obs idx hecond
    have hacond : ∀ p ∈ idx.zip (List.range b.n_env),
        ∃ row, b.actions p.1 = some row ∧ p.2 < row.length := by
      intro p hp
      obtain ⟨hp1, hp2⟩ := hpair p hp
      obtain ⟨e, a, r, mu, d, mk, _, _, _, _, _, _, haj, halen, _, _, _, _, _, _⟩ := hwf p.1 hp1
      exact ⟨a, haj, by rw [halen]; exact hp2⟩
    obtain ⟨acts, hacts⟩ := take_isSome b b.actions idx hacond
    have hrcond : ∀ p ∈ idx.zip (List.range b.n_env),
        ∃ row, b.rewards p.1 = some row ∧ p.2 < row.length := by
      intro p hp
      obtain ⟨hp1, hp2⟩ := hpair p hp
      obtain ⟨e, a, r, mu, d, mk, _, _, _, _, _, _, _, _, hrj, hrlen, _, _, _, _⟩ := hwf p.1 hp1
      exact ⟨r, hrj, by rw [hrlen]; exact hp2⟩
    obtain ⟨rews, hrews⟩ := take_isSome b b.rewards idx hrcond
    have hmcond : ∀ p ∈ idx.zip (List.range b.n_env),
        ∃ row, b.mus p.1 = some row ∧ p.2 < row.length := by
      intro p hp
      obtain ⟨hp1, hp2⟩ := hpair p hp
      obtain ⟨e, a, r, mu, d, mk, _, _, _, _, _, _, _, _, _, _, hmj, hmlen, _, _⟩ := hwf p.1 hp1
      exact ⟨mu, hmj, by rw [hmlen]; exact hp2⟩
    obtain ⟨muss, hmuss⟩ := take_isSome b b.mus idx hmcond
    have hkcond : ∀ p ∈ idx.zip (List.range b.n_env),
        ∃ row, b.masks p.1 = some row ∧ p.2 < row.length := by
      intro p hp
      obtain ⟨hp1, hp2⟩ := hpair p hp
      obtain ⟨e, a, r, mu, d, mk, _, _, _, _, _, _, _, _, _, _, _, _, hkj, hklen⟩ := hwf p.1 hp1
      exact ⟨mk, hkj, by rw [hklen]; exact hp2⟩
    obtain ⟨mks, hmks⟩ := take_isSome b b.masks idx hkcond
    have hencLen : ∀ x ∈ encs, x.length = b.n_steps + b.n_stack := by
      intro x hx
      obtain ⟨p, hp, hfx⟩ := mapM_mem _ _ _ hencs x hx
      obtain ⟨hp1, _⟩ := hpair p hp
      obtain ⟨e, a, r, mu, d, mk, hej, _, hex, _, _, _, _, _, _, _, _, _, _, _⟩ := hwf p.1 hp1
      rw [hej, Option.some_bind] at hfx
      exact hex x (List.getElem?_mem hfx)
    have hdnsLen : ∀ x ∈ dns, x.length = b.n_steps := by
      intro x hx
      obtain ⟨p, hp, hfx⟩ := mapM_mem _ _ _ hdns x hx
      obtain ⟨hp1, _⟩ := hpair p hp
      obtain ⟨e, a, r, mu, d, mk, _, _, _, hdj, _, hdx, _, _, _, _, _, _, _, _⟩ := hwf p.1 hp1
      rw [hdj, Option.some_bind] at hfx
      exact hdx x (List.getElem?_mem hfx)
    have hdecond : ∀ q ∈ encs.zip dns, (decode b.n_stack b.n_steps q.1 q.2).isSome = true := by
      intro q hq
      obtain ⟨hq1, hq2⟩ := List.of_mem_zip hq
      rw [decode, if_pos]
      · rfl
      · refine ⟨hencLen _ hq1, hdnsLen _ hq2, ?_⟩
        rw [hstack]
        omega
    obtain ⟨obs, hobs⟩ := mapM_isSome
      (fun p => decode b.n_stack b.n_steps p.1 p.2) (encs.zip dns) hdecond
    refine ⟨(⟨obs, acts, rews, muss, dns, mks⟩, b), ?_⟩
    rw [Buffer.get]
    simp only [hc, if_true, hdns, hencs, hobs, hacts, hrews, hmuss, hmks]

/-- A concretely filled one-slot buffer for the witness below: one
environment, `n_steps = 1`, `n_stack = 4`, slot 0 filled. -/
def sampleBuffer : Buffer where
  n_env := 1
  n_steps := 1
  n_stack := 4
  size := 1
  enc_obs := fun j => if j = 0 then some [[1, 2, 3, 4, 5]] else none
  actions := fun j => if j = 0 then some [0] else none
  rewards := fun j => if j = 0 then some [0] else none
  mus := fun j => if j = 0 then some [0] else none
  dones := fun j => if j = 0 then some [[0]] else none
  masks := fun j => if j = 0 then some [0] else none
  next_idx := 0
  num_in_buffer := 1

/-- A never-written buffer for the witness below. -/
def emptyBuffer : Buffer where
  n_env := 1
  n_steps := 1
  n_stack := 4
  size := 1
  enc_obs := fun _ => none
  actions := fun _ => none
  rewards := fun _ => none
  mus := fun _ => none
  dones := fun _ => none
  masks := fun _ => none
  next_idx := 0
  num_in_buffer := 0

/-- Concrete instance of `get_gating`: the empty buffer raises
`AssertionError`; the filled one-slot buffer returns a batch. -/
theorem get_gating_witness :
    emptyBuffer.get [] = .error "AssertionError" ∧
    ∃ out, sampleBuffer.get [0] = .ok out := by
  constructor
  · exact (get_gating emptyBuffer []).1 rfl
  · refine (get_gating sampleBuffer [0]).2 rfl rfl (by decide) ?_ rfl
    intro j hj
    have hj0 : j = 0 := by
      have : j < 1 := hj
      omega
    subst hj0
    exact ⟨[[1, 2, 3, 4, 5]], [0], [0], [0], [[0]], [0],
      rfl, rfl, by decide, rfl, rfl, by decide, rfl, rfl, rfl, rfl, rfl, rfl, rfl, rfl⟩

/-- C8 counterexample: calling `get` before any `put` fails with
`AssertionError`, which is not the `EmptyBufferError` named by the
specification (no such exception exists in the code). -/
theorem get_error_name_counterexample :
    ((Buffer.init 1 1 4 1).map fun b => b.get []) = some (.error "AssertionError") ∧
    (Except.error "AssertionError" : Except String (GetResult × Buffer))
      ≠ .error "EmptyBufferError" := by
  refine ⟨rfl, ?_⟩
  intro h
  simp at h

/-- C10: `get` is read-only on the buffer state: whatever it returns (error or
batch), the post-state equals the input state — no field of the buffer is
mutated by a `get` call. -/
theorem get_read_only (b : Buffer) (idx : List ℕ) :
    (b.get idx).map Prod.snd = (b.get idx).map fun _ => b := by
  rw [Buffer.get]
  repeat' split
  all_goals rfl

end ACER
